import Mathlib

set_option maxRecDepth 8000

/- Verification development for the exam-question text parser of pkg/pdf/parser.go.
   A line of extracted text is modelled as a list of characters; the extracted
   document is a list of lines (parseText splits the text on newline characters).
   Go byte strings are valid UTF-8 here, so a string is represented by its
   character (rune) sequence and its Go len() by the summed UTF-8 sizes. -/

abbrev Line : Type := List Char

/- Character classes.  isTrimWS is the white space removed by strings.TrimSpace
   (ASCII classes; the exotic non-ASCII Unicode space classes do not occur in the
   inputs treated here).  isRegexWS is the regexp class backslash-s. -/

def isTrimWS (c : Char) : Bool :=
  c == ' ' || c == '\t' || c == '\n' || c == '\x0b' || c == '\x0c' || c == '\r'

def isRegexWS (c : Char) : Bool :=
  c == ' ' || c == '\t' || c == '\n' || c == '\x0c' || c == '\r'

def isDigitC (c : Char) : Bool :=
  c == '0' || c == '1' || c == '2' || c == '3' || c == '4' ||
  c == '5' || c == '6' || c == '7' || c == '8' || c == '9'

/-- The regexp character class [a-f] used for option letters. -/
def isOptLetter (c : Char) : Bool :=
  c == 'a' || c == 'b' || c == 'c' || c == 'd' || c == 'e' || c == 'f'

/-- strings.TrimSpace. -/
def trimL (l : Line) : Line :=
  ((l.dropWhile isTrimWS).reverse.dropWhile isTrimWS).reverse

def startsWithL : Line → Line → Bool
  | _, [] => true
  | [], _ :: _ => false
  | c :: cs, d :: ds => c == d && startsWithL cs ds

/-- strings.Contains. -/
def containsL : Line → Line → Bool
  | [], pat => pat.isEmpty
  | c :: cs, pat => startsWithL (c :: cs) pat || containsL cs pat

/-- strings.ContainsRune. -/
def containsC (l : Line) (c : Char) : Bool := l.any (fun d => d == c)

/-- UTF-8 encoded size of one rune. -/
def utf8Sz (c : Char) : Nat :=
  if c.toNat < 128 then 1
  else if c.toNat < 2048 then 2
  else if c.toNat < 65536 then 3
  else 4

/-- Go len() of a string: number of UTF-8 bytes. -/
def utf8Len (l : Line) : Nat := (l.map utf8Sz).sum

/-- strings.Split(text, newline). -/
def splitNL : List Char → List Line
  | [] => [[]]
  | c :: rest =>
    match splitNL rest with
    | [] => [[c]]
    | l :: ls => if c = '\n' then [] :: l :: ls else (c :: l) :: ls

/-- strconv.Atoi on a non-empty digit string: fails (only) above the int64 range. -/
def atoi (ds : Line) : Option Nat :=
  let n := ds.foldl (fun a c => 10 * a + (c.toNat - 48)) 0
  if n ≤ 9223372036854775807 then some n else none

/- The data model of pkg/models/question.go. -/

namespace models

structure Option where
  Letter : Char
  Text : List Char
  Correct : Bool
deriving DecidableEq

structure Question where
  ID : Nat
  Text : List Char
  Options : List Option
  Category : List Char
deriving DecidableEq

structure QuestionCatalog where
  Title : List Char
  Year : Nat
  State : List Char
  Subject : List Char
  TotalCount : Nat
  Questions : List Question
  LastModified : List Char
deriving DecidableEq

end models

/-- The ephemeral per-number question draft (struct rawQuestion).  The Go
    options map from letter to Option is modelled as an association list whose
    insert replaces an existing key in place. -/
structure rawQuestion where
  number : Nat
  text : List Char
  options : List (Char × models.Option)
deriving DecidableEq

/-- The mutable session state of parseText. -/
structure ParseState where
  rawQuestions : List (Nat × rawQuestion)
  lastQuestionNum : Nat
  currentCategory : List Char
  nextOptionIsCorrect : Bool
deriving DecidableEq

/- Association-list operations standing in for Go maps.  Iteration order of a
   Go map is unspecified; the parser only enumerates map keys once, immediately
   before sorting them, so the replace-in-place order below is observationally
   equivalent. -/

def alInsert {κ α : Type} [DecidableEq κ] (k : κ) (v : α) : List (κ × α) → List (κ × α)
  | [] => [(k, v)]
  | (k', v') :: t => if k' = k then (k, v) :: t else (k', v') :: alInsert k v t

def alLookup {κ α : Type} [DecidableEq κ] : List (κ × α) → κ → Option α
  | [], _ => none
  | (k', v) :: t, k => if k' = k then some v else alLookup t k

/- Line shape matchers.  Each regex of parseText is applied to a line that was
   already trimmed, so the leading and trailing whitespace parts of the patterns
   match empty text; the matchers below take the trimmed line. -/

/-- questionOnlyPattern: digits, a period, end of line.  Returns the digit capture. -/
def matchQuestionOnly (t : Line) : Option Line :=
  let ds := t.takeWhile isDigitC
  if ds = [] then none
  else if t.drop ds.length = ['.'] then some ds else none

/-- questionWithTextPattern: digits, a period, whitespace, a non-empty remainder.
    Returns the digit capture and the remainder after the maximal whitespace run. -/
def matchQuestionWithText (t : Line) : Option (Line × Line) :=
  let ds := t.takeWhile isDigitC
  if ds = [] then none
  else
    match t.drop ds.length with
    | p :: r =>
      if p = '.' then
        let ws := r.takeWhile isRegexWS
        if ws = [] then none
        else
          let body := r.drop ws.length
          if body = [] then none else some (ds, body)
      else none
    | [] => none

/-- optionLinePattern: a letter a-f, a closing parenthesis, then the rest.
    Returns the letter and the rest after the maximal whitespace run. -/
def matchOptionLine (t : Line) : Option (Char × Line) :=
  match t with
  | c :: p :: rest =>
    if isOptLetter c && p = ')' then some (c, rest.dropWhile isRegexWS) else none
  | _ => none

/-- optionWithXPattern: X, whitespace, a letter a-f, a closing parenthesis, the rest. -/
def matchOptionWithX (t : Line) : Option (Char × Line) :=
  match t with
  | c0 :: r =>
    if c0 = 'X' then
      let ws := r.takeWhile isRegexWS
      if ws = [] then none
      else
        match r.drop ws.length with
        | c :: p :: rest =>
          if isOptLetter c && p = ')' then some (c, rest.dropWhile isRegexWS) else none
        | _ => none
    else none
  | [] => none

/-- justXPattern on a trimmed line: exactly the letter X. -/
def isJustX (t : Line) : Bool := t == ['X']

/-- sectionHeaderPattern: digits, a period, digits, then required whitespace. -/
def isSectionHeader (t : Line) : Bool :=
  let d1 := t.takeWhile isDigitC
  if d1 = [] then false
  else
    match t.drop d1.length with
    | '.' :: r =>
      let d2 := r.takeWhile isDigitC
      if d2 = [] then false
      else
        match r.drop d2.length with
        | c :: _ => isRegexWS c
        | [] => false
    | _ => false

/-- A line containing the category marker token and a colon. -/
def isCategoryLine (t : Line) : Bool :=
  containsL t ("Sachgebiet".toList) && containsL t (":".toList)

/-- A metadata or footer line: date stamp, page number, reviewer, or publisher. -/
def isMetaLine (t : Line) : Bool :=
  containsL t ("Stand:".toList) || containsL t ("Seite".toList) ||
  containsL t ("Zweitkorrektor".toList) || containsL t ("HERAUSGEBER".toList)

/- Post-accumulation cleanup.  Go regexp replacement is leftmost-first; each of
   the cleanup patterns is anchored at the end of the string (or swallows the
   rest of it), so ReplaceAllString keeps the text before the leftmost position
   whose suffix matches the pattern. -/

/-- Keeps the prefix before the leftmost suffix satisfying p (identity if none). -/
def stripSuffixWhere (p : Line → Bool) : Line → Line
  | [] => []
  | c :: cs => if p (c :: cs) then [] else c :: stripSuffixWhere p cs

/-- Whole-string match of: whitespace, X, whitespace, a letter a-f, a closing
    parenthesis, optional whitespace. -/
def fullTrailXOpt (t : Line) : Bool :=
  let w1 := t.takeWhile isRegexWS
  if w1 = [] then false
  else
    match t.drop w1.length with
    | 'X' :: r =>
      let w2 := r.takeWhile isRegexWS
      if w2 = [] then false
      else
        match r.drop w2.length with
        | c :: p :: r2 => isOptLetter c && p = ')' && r2.all isRegexWS
        | _ => false
    | _ => false

/-- Prefix match of: whitespace, X, whitespace, a letter a-f, a closing
    parenthesis (the rest is arbitrary, swallowed by the trailing .* of the pattern). -/
def isXOptStart (t : Line) : Bool :=
  let w1 := t.takeWhile isRegexWS
  if w1 = [] then false
  else
    match t.drop w1.length with
    | 'X' :: r =>
      let w2 := r.takeWhile isRegexWS
      if w2 = [] then false
      else
        match r.drop w2.length with
        | c :: p :: _ => isOptLetter c && p = ')'
        | _ => false
    | _ => false

/-- Whole-string match of: whitespace, X, optional whitespace. -/
def fullTrailX (t : Line) : Bool :=
  let w1 := t.takeWhile isRegexWS
  if w1 = [] then false
  else
    match t.drop w1.length with
    | 'X' :: r2 => r2.all isRegexWS
    | _ => false

/-- Whole-string match of: whitespace, a letter a-f, a closing parenthesis,
    optional whitespace. -/
def fullTrailLetterParen (t : Line) : Bool :=
  let w1 := t.takeWhile isRegexWS
  if w1 = [] then false
  else
    match t.drop w1.length with
    | c :: p :: r2 => isOptLetter c && p = ')' && r2.all isRegexWS
    | _ => false

/-- Removal of a trailing accidental lead-in to the next option (rule 4 cleanup). -/
def stripTrailXOpt (t : Line) : Line := stripSuffixWhere fullTrailXOpt t

/-- Removal of everything from an embedded option lead-in to the end (rule 5 cleanup). -/
def stripFromXOpt : Line → Line
  | [] => []
  | c :: cs => if isXOptStart (c :: cs) then [] else c :: stripFromXOpt cs

def stripTrailLoneX (t : Line) : Line := stripSuffixWhere fullTrailX t

def stripTrailLetterParen (t : Line) : Line := stripSuffixWhere fullTrailLetterParen t

/-- strings.ReplaceAll(s, two spaces, one space): one left-to-right pass over
    non-overlapping occurrences. -/
def replaceDouble : Line → Line
  | ' ' :: ' ' :: rest => ' ' :: replaceDouble rest
  | c :: rest => c :: replaceDouble rest
  | [] => []

/- Multi-line accumulation.  The parser index is not advanced by lookahead, so
   each accumulation pass receives the lines after the current one (they are
   processed again later as ordinary lines).  The Go loop bound
   j from i+1 while j < i+1+fuel examines at most fuel lookahead lines, blank
   lines included. -/

/-- Terminators of the question-number-only accumulation (rule 4). -/
def stopQOnly (n : Line) : Bool :=
  (matchOptionLine n).isSome || (matchOptionWithX n).isSome || isJustX n ||
  (matchQuestionOnly n).isSome || (matchQuestionWithText n).isSome

/-- Terminators of the inline-question accumulation (rule 5). -/
def stopInline (n : Line) : Bool :=
  (matchOptionLine n).isSome ||
  (matchQuestionOnly n).isSome || (matchQuestionWithText n).isSome

/-- Terminators of the option accumulation (rules 7 and 8). -/
def stopOption (n : Line) : Bool :=
  (matchOptionLine n).isSome || (matchOptionWithX n).isSome ||
  (matchQuestionOnly n).isSome || (matchQuestionWithText n).isSome ||
  containsL n ("Sachgebiet".toList) || containsL n ("Stand:".toList)

/-- The bounded lookahead join: each examined line is trimmed; blank lines are
    skipped but consume fuel; a terminator stops; otherwise the line is joined
    with a space separator. -/
def accumGo (stop : Line → Bool) : Nat → List Line → Line → Line
  | 0, _, acc => acc
  | _ + 1, [], acc => acc
  | fuel + 1, l :: ls, acc =>
    let n := trimL l
    if n = [] then accumGo stop fuel ls acc
    else if stop n then acc
    else accumGo stop fuel ls (acc ++ ' ' :: n)

/-- Accumulated and cleaned text of a question given by a number-only line
    (rule 4): the loop bound j < i+15 examines at most 14 lookahead lines. -/
def qOnlyText (rest : List Line) : Line :=
  stripTrailXOpt (trimL (accumGo stopQOnly 14 rest []))

/-- Accumulated and cleaned text of an inline question (rule 5): the loop bound
    j < i+10 examines at most 9 lookahead lines. -/
def inlineText (body : Line) (rest : List Line) : Line :=
  trimL (stripFromXOpt (replaceDouble (trimL (accumGo stopInline 9 rest (trimL body)))))

/-- Accumulated and cleaned text of an option (rules 7 and 8): the loop bound
    j < i+8 examines at most 7 lookahead lines. -/
def optionText (body : Line) (rest : List Line) : Line :=
  trimL (stripTrailLetterParen (stripTrailLoneX (trimL (accumGo stopOption 7 rest (trimL body)))))

/- The per-line state transition of parseText, split along the Go source. -/

/-- Rule 2: a category-marker line replaces the current category with the full
    trimmed line; this runs on every non-blank line regardless of other matches. -/
def catStep (t : Line) (st : ParseState) : ParseState :=
  if isCategoryLine t then { st with currentCategory := t } else st

/-- Rule 4: question number alone on the line.  The current question number is
    set before the length check; the draft is created (overwriting any previous
    draft of that number wholesale) only if the cleaned text has more than five
    bytes.  Atoi failure or a number below one abandons the line. -/
def handleQuestionOnly (ds : Line) (rest : List Line) (st : ParseState) : ParseState :=
  match atoi ds with
  | none => st
  | some qNum =>
    if qNum < 1 then st
    else
      let st1 : ParseState := { st with lastQuestionNum := qNum }
      let qText := qOnlyText rest
      if 5 < utf8Len qText then
        { st1 with rawQuestions := alInsert qNum ⟨qNum, qText, []⟩ st1.rawQuestions }
      else st1

/-- Rule 5: question number with inline text.  A remainder without a question
    mark is ignored (sub-section headings).  Otherwise as in rule 4. -/
def handleQuestionInline (ds body : Line) (rest : List Line) (st : ParseState) : ParseState :=
  match atoi ds with
  | none => st
  | some qNum =>
    if qNum < 1 then st
    else if !(containsC body '?') then st
    else
      let st1 : ParseState := { st with lastQuestionNum := qNum }
      let qText := inlineText body rest
      if 5 < utf8Len qText then
        { st1 with rawQuestions := alInsert qNum ⟨qNum, qText, []⟩ st1.rawQuestions }
      else st1

/-- Rules 7 and 8: option lines, handled only when a question context is open
    and its draft exists.  The marked form is checked first and is always
    correct; the unmarked form consumes the pending-correct flag.  Both clear
    the flag. -/
def handleOptionLine (t : Line) (rest : List Line) (st : ParseState) : ParseState :=
  if 0 < st.lastQuestionNum then
    match alLookup st.rawQuestions st.lastQuestionNum with
    | none => st
    | some rq =>
      match matchOptionWithX t with
      | some (c, body) =>
        { st with
          rawQuestions := alInsert st.lastQuestionNum
            { rq with options := alInsert c ⟨c, optionText body rest, true⟩ rq.options }
            st.rawQuestions,
          nextOptionIsCorrect := false }
      | none =>
        match matchOptionLine t with
        | some (c, body) =>
          { st with
            rawQuestions := alInsert st.lastQuestionNum
              { rq with options := alInsert c ⟨c, optionText body rest, st.nextOptionIsCorrect⟩ rq.options }
              st.rawQuestions,
            nextOptionIsCorrect := false }
        | none => st
  else st

/-- Rules 4 to 8 in source order.  In the Go source these are sequential
    non-exclusive checks; their matched shapes are pairwise exclusive (a line
    cannot begin with both a digit and a letter or X), so the threaded states
    below reproduce the fall-through behaviour exactly. -/
def lateRules (t : Line) (rest : List Line) (st : ParseState) : ParseState :=
  let st2 := match matchQuestionOnly t with
    | some ds => handleQuestionOnly ds rest st
    | none => st
  let st3 := match matchQuestionWithText t with
    | some (ds, body) => handleQuestionInline ds body rest st2
    | none => st2
  if 0 < st3.lastQuestionNum ∧ isJustX t = true then
    { st3 with nextOptionIsCorrect := true }
  else handleOptionLine t rest st3

/-- One iteration of the main loop of parseText: trim, skip blank lines, run the
    category update, skip metadata lines, then the shape rules. -/
def processLine (line : Line) (rest : List Line) (st : ParseState) : ParseState :=
  let t := trimL line
  if t = [] then st
  else if isMetaLine t then catStep t st
  else lateRules t rest (catStep t st)

/-- The main loop: each line is processed with the following lines available for
    lookahead. -/
def processLines : List Line → ParseState → ParseState
  | [], st => st
  | l :: rest, st => processLines rest (processLine l rest st)

/- Header skip and category seed. -/

/-- Backward scan (up to 50 lines, nearest first) for a category-marker line;
    its trimmed text seeds the category, absence leaves it empty. -/
def seekCategory (revPrev : List Line) : Line :=
  match (revPrev.take 50).find? (fun l => isCategoryLine (trimL l)) with
  | some l => trimL l
  | none => []

/-- Scan for the first subsection-header line; returns the lines from it onward
    together with the seeded category. -/
def findStart (revPrev : List Line) : List Line → Option (List Line × Line)
  | [] => none
  | l :: ls =>
    if isSectionHeader (trimL l) then some (l :: ls, seekCategory revPrev)
    else findStart (l :: revPrev) ls

/-- Parse start: at the first subsection header with the seeded category, or at
    line zero with an empty category when no subsection header exists. -/
def initLines (lines : List Line) : List Line × Line :=
  match findStart [] lines with
  | some r => r
  | none => (lines, [])

/-- The parser session state after consuming the whole input. -/
def finalState (lines : List Line) : ParseState :=
  let p := initLines lines
  processLines p.1 { rawQuestions := [], lastQuestionNum := 0,
                     currentCategory := p.2, nextOptionIsCorrect := false }

/- Finalization. -/

/-- The inner loop of the Go bubble sort: scanning with swaps leaves the minimum
    at the outer position and the displaced values in place. -/
def innerMin (x : Nat) : List Nat → Nat × List Nat
  | [] => (x, [])
  | y :: ys =>
    if y < x then ((innerMin y ys).1, x :: (innerMin y ys).2)
    else ((innerMin x ys).1, y :: (innerMin x ys).2)

theorem innerMin_len (x : Nat) (l : List Nat) : (innerMin x l).2.length = l.length := by
  induction l generalizing x with
  | nil => rfl
  | cons y ys ih =>
    simp only [innerMin]
    split
    · simp [ih]
    · simp [ih]

/-- Fuel-indexed outer loop of the swap sort; the fuel is the number of outer
    iterations left.  The inner pass preserves length, so starting the fuel at
    the list length reproduces the Go double loop exactly. -/
def sortGo : Nat → List Nat → List Nat
  | _, [] => []
  | 0, _ :: _ => []
  | fuel + 1, x :: xs => (innerMin x xs).1 :: sortGo fuel (innerMin x xs).2

/-- The double-loop swap sort of the collected question numbers. -/
def sortNums (l : List Nat) : List Nat := sortGo l.length l

/-- The fixed letter sequence used to materialize options alphabetically. -/
def letters : List Char := ['a', 'b', 'c', 'd', 'e', 'f']

/-- One final Question: options rebuilt by iterating the fixed letter sequence,
    skipping absent letters; the category is the session category at finalization. -/
def mkQ (st : ParseState) (rq : rawQuestion) : models.Question :=
  { ID := rq.number, Text := rq.text,
    Options := letters.filterMap (fun c => alLookup rq.options c),
    Category := st.currentCategory }

/-- The final filter and build: a draft is included only if its text exceeds
    five bytes and it has at least one option. -/
def buildQuestions (st : ParseState) : List Nat → List models.Question
  | [] => []
  | n :: ns =>
    match alLookup st.rawQuestions n with
    | some rq =>
      if 5 < utf8Len rq.text ∧ rq.options ≠ [] then mkQ st rq :: buildQuestions st ns
      else buildQuestions st ns
    | none => buildQuestions st ns

/-- parseText on an already-split line sequence.  The impure timestamp taken at
    catalog creation (time.Now in RFC3339 format) is made an explicit argument. -/
def parseLines (now : Line) (lines : List Line) : models.QuestionCatalog :=
  let st := finalState lines
  let qs := buildQuestions st (sortNums (st.rawQuestions.map Prod.fst))
  { Title := "Jagdfrageprüfer Bayern".toList, Year := 2025, State := "by".toList,
    Subject := "Jagdwaffen, Jagd- und Fanggeräte".toList,
    TotalCount := qs.length, Questions := qs, LastModified := now }

/-- parseText on raw extracted text. -/
def parseText (now : Line) (text : List Char) : models.QuestionCatalog :=
  parseLines now (splitNL text)

/-- The committed-question projection of rules 4 and 5: the question number and
    cleaned text that processLine stores as a fresh draft for this (trimmed,
    non-blank, non-metadata) line, if the line commits one. -/
def commitResult (t : Line) (rest : List Line) : Option (Nat × Line) :=
  match matchQuestionOnly t with
  | some ds =>
    match atoi ds with
    | some n =>
      if 1 ≤ n ∧ 5 < utf8Len (qOnlyText rest) then some (n, qOnlyText rest) else none
    | none => none
  | none =>
    match matchQuestionWithText t with
    | some (ds, body) =>
      match atoi ds with
      | some n =>
        if 1 ≤ n ∧ containsC body '?' = true ∧ 5 < utf8Len (inlineText body rest) then
          some (n, inlineText body rest)
        else none
      | none => none
    | none => none

/-- Invariant of a draft option map: every stored option carries its key as its
    letter, and every key comes from the class [a-f]. -/
def optInv (os : List (Char × models.Option)) : Prop :=
  ∀ p ∈ os, p.2.Letter = p.1 ∧ isOptLetter p.1 = true

/-- Invariant of the draft map: keys are unique and at least one, each draft
    records its own key as its number, and its option map satisfies optInv. -/
def mapInv (m : List (Nat × rawQuestion)) : Prop :=
  (m.map Prod.fst).Nodup ∧ ∀ p ∈ m, 1 ≤ p.1 ∧ p.2.number = p.1 ∧ optInv p.2.options

/- Lemmas about the association-list map operations. -/

theorem mem_alInsert {κ α : Type} [DecidableEq κ] (k : κ) (v : α) (l : List (κ × α))
    (p : κ × α) (h : p ∈ alInsert k v l) : p = (k, v) ∨ p ∈ l := by
  induction l with
  | nil => simpa [alInsert] using h
  | cons q t ih =>
    obtain ⟨k', v'⟩ := q
    simp only [alInsert] at h
    split at h
    · rcases List.mem_cons.mp h with h | h
      · exact Or.inl h
      · exact Or.inr (List.mem_cons_of_mem _ h)
    · rcases List.mem_cons.mp h with h | h
      · exact Or.inr (by simp [h])
      · rcases ih h with h1 | h1
        · exact Or.inl h1
        · exact Or.inr (List.mem_cons_of_mem _ h1)

theorem keys_alInsert {κ α : Type} [DecidableEq κ] (k : κ) (v : α) (l : List (κ × α))
    (x : κ) (h : x ∈ (alInsert k v l).map Prod.fst) : x = k ∨ x ∈ l.map Prod.fst := by
  rcases List.mem_map.mp h with ⟨p, hp, hx⟩
  rcases mem_alInsert k v l p hp with h1 | h1
  · left; rw [← hx, h1]
  · right; exact List.mem_map.mpr ⟨p, h1, hx⟩

theorem nodup_keys_alInsert {κ α : Type} [DecidableEq κ] (k : κ) (v : α)
    (l : List (κ × α)) (h : (l.map Prod.fst).Nodup) :
    ((alInsert k v l).map Prod.fst).Nodup := by
  induction l with
  | nil => simp [alInsert]
  | cons q t ih =>
    obtain ⟨k', v'⟩ := q
    simp only [alInsert]
    split
    · rename_i heq
      subst heq
      simpa using h
    · rename_i hne
      simp only [List.map_cons, List.nodup_cons] at h ⊢
      refine ⟨fun hc => ?_, ih h.2⟩
      rcases keys_alInsert k v t k' hc with h1 | h1
      · exact hne h1
      · exact h.1 h1

theorem alLookup_alInsert_self {κ α : Type} [DecidableEq κ] (k : κ) (v : α)
    (l : List (κ × α)) : alLookup (alInsert k v l) k = some v := by
  induction l with
  | nil => simp [alInsert, alLookup]
  | cons q t ih =>
    obtain ⟨k', v'⟩ := q
    simp only [alInsert]
    split
    · simp [alLookup]
    · rename_i hne
      simp only [alLookup, if_neg hne]
      exact ih

theorem alLookup_alInsert_ne {κ α : Type} [DecidableEq κ] (k k' : κ) (v : α)
    (l : List (κ × α)) (h : k' ≠ k) : alLookup (alInsert k v l) k' = alLookup l k' := by
  have hk : ¬k = k' := fun hc => h hc.symm
  induction l with
  | nil =>
    simp only [alInsert, alLookup]
    rw [if_neg hk]
  | cons q t ih =>
    obtain ⟨k0, v0⟩ := q
    simp only [alInsert]
    split
    · rename_i heq
      subst heq
      simp only [alLookup]
      rw [if_neg hk, if_neg hk]
    · simp only [alLookup]
      split
      · rfl
      · exact ih

theorem alLookup_mem {κ α : Type} [DecidableEq κ] (l : List (κ × α)) (k : κ) (v : α)
    (h : alLookup l k = some v) : (k, v) ∈ l := by
  induction l with
  | nil => simp [alLookup] at h
  | cons q t ih =>
    obtain ⟨k', v'⟩ := q
    simp only [alLookup] at h
    split at h
    · rename_i heq
      subst heq
      simp at h
      simp [h]
    · exact List.mem_cons_of_mem _ (ih h)

theorem alLookup_isSome_of_mem {κ α : Type} [DecidableEq κ] (l : List (κ × α))
    (k : κ) (v : α) (h : (k, v) ∈ l) : ∃ v', alLookup l k = some v' := by
  induction l with
  | nil => simp at h
  | cons q t ih =>
    obtain ⟨k', v'⟩ := q
    rcases List.mem_cons.mp h with h1 | h1
    · refine ⟨v', ?_⟩
      have : k' = k := by
        have := congrArg Prod.fst h1.symm
        simpa using this
      simp [alLookup, this]
    · by_cases hk : k' = k
      · exact ⟨v', by simp [alLookup, hk]⟩
      · rcases ih h1 with ⟨v0, hv0⟩
        exact ⟨v0, by simp [alLookup, hk, hv0]⟩

/- Character-class facts used for pattern disjointness. -/

theorem isDigitC_ne_X {c : Char} (h : isDigitC c = true) : c ≠ 'X' := by
  intro hc
  subst hc
  exact absurd h (by decide)

theorem isDigitC_enum {c : Char} (h : isDigitC c = true) :
    c = '0' ∨ c = '1' ∨ c = '2' ∨ c = '3' ∨ c = '4' ∨
    c = '5' ∨ c = '6' ∨ c = '7' ∨ c = '8' ∨ c = '9' := by
  simp only [isDigitC, Bool.or_eq_true, beq_iff_eq] at h
  tauto

theorem isDigitC_not_optLetter {c : Char} (h : isDigitC c = true) : isOptLetter c = false := by
  rcases isDigitC_enum h with rfl | rfl | rfl | rfl | rfl | rfl | rfl | rfl | rfl | rfl <;> decide

theorem isOptLetter_ne_X {c : Char} (h : isOptLetter c = true) : c ≠ 'X' := by
  intro hc
  subst hc
  exact absurd h (by decide)

theorem isOptLetter_enum {c : Char} (h : isOptLetter c = true) :
    c = 'a' ∨ c = 'b' ∨ c = 'c' ∨ c = 'd' ∨ c = 'e' ∨ c = 'f' := by
  simp only [isOptLetter, Bool.or_eq_true, beq_iff_eq] at h
  tauto

theorem isOptLetter_not_digit {c : Char} (h : isOptLetter c = true) : isDigitC c = false := by
  rcases isOptLetter_enum h with rfl | rfl | rfl | rfl | rfl | rfl <;> decide

theorem isOptLetter_mem_letters {c : Char} (h : isOptLetter c = true) : c ∈ letters := by
  rcases isOptLetter_enum h with rfl | rfl | rfl | rfl | rfl | rfl <;> decide

/- Shape facts about the line matchers. -/

theorem takeWhile_ne_nil_head {p : Char → Bool} {t : Line} (h : t.takeWhile p ≠ []) :
    ∃ c r, t = c :: r ∧ p c = true := by
  cases t with
  | nil => simp [List.takeWhile] at h
  | cons c r =>
    refine ⟨c, r, rfl, ?_⟩
    by_contra hc
    simp only [Bool.not_eq_true] at hc
    simp [List.takeWhile, hc] at h

theorem matchQuestionOnly_head {t : Line} {ds : Line}
    (h : matchQuestionOnly t = some ds) : ∃ c r, t = c :: r ∧ isDigitC c = true := by
  simp only [matchQuestionOnly] at h
  split at h
  · exact absurd h (by simp)
  · rename_i hds
    exact takeWhile_ne_nil_head hds

theorem matchQuestionWithText_head {t : Line} {ds body : Line}
    (h : matchQuestionWithText t = some (ds, body)) :
    ∃ c r, t = c :: r ∧ isDigitC c = true := by
  simp only [matchQuestionWithText] at h
  split at h
  · exact absurd h (by simp)
  · rename_i hds
    exact takeWhile_ne_nil_head hds

theorem matchOptionLine_shape {t : Line} {c : Char} {body : Line}
    (h : matchOptionLine t = some (c, body)) :
    ∃ r, t = c :: ')' :: r ∧ isOptLetter c = true ∧ body = r.dropWhile isRegexWS := by
  cases t with
  | nil => simp [matchOptionLine] at h
  | cons c0 t0 =>
    cases t0 with
    | nil => simp [matchOptionLine] at h
    | cons p r =>
      simp only [matchOptionLine] at h
      split at h
      · rename_i hcond
        simp only [Bool.and_eq_true, beq_iff_eq, decide_eq_true_eq] at hcond
        simp only [Option.some.injEq, Prod.mk.injEq] at h
        obtain ⟨rfl, rfl⟩ := h
        exact ⟨r, by rw [hcond.2], hcond.1, rfl⟩
      · exact absurd h (by simp)

theorem matchOptionWithX_head {t : Line} {c : Char} {body : Line}
    (h : matchOptionWithX t = some (c, body)) : ∃ r, t = 'X' :: r := by
  cases t with
  | nil => simp [matchOptionWithX] at h
  | cons c0 r =>
    simp only [matchOptionWithX] at h
    split at h
    · rename_i hc
      exact ⟨r, by rw [hc]⟩
    · exact absurd h (by simp)

theorem matchOptionLine_letter {t : Line} {c : Char} {body : Line}
    (h : matchOptionLine t = some (c, body)) : isOptLetter c = true := by
  rcases matchOptionLine_shape h with ⟨r, _, hl, _⟩
  exact hl

theorem matchOptionWithX_letter {t : Line} {c : Char} {body : Line}
    (h : matchOptionWithX t = some (c, body)) : isOptLetter c = true := by
  cases t with
  | nil => simp [matchOptionWithX] at h
  | cons c0 r =>
    simp only [matchOptionWithX] at h
    split at h
    · split at h
      · exact absurd h (by simp)
      · split at h
        · rename_i hcond
          split at h
          · rename_i hc
            simp only [Bool.and_eq_true, beq_iff_eq, decide_eq_true_eq] at hc
            simp only [Option.some.injEq, Prod.mk.injEq] at h
            obtain ⟨rfl, rfl⟩ := h
            exact hc.1
          · exact absurd h (by simp)
        · exact absurd h (by simp)
    · exact absurd h (by simp)

theorem mqo_mqwt_none {t : Line} {ds : Line} (h : matchQuestionOnly t = some ds) :
    matchQuestionWithText t = none := by
  simp only [matchQuestionOnly] at h
  simp only [matchQuestionWithText]
  split at h
  · exact absurd h (by simp)
  · rename_i hds
    split at h
    · rename_i hdrop
      rw [if_neg hds, hdrop]
      simp
    · exact absurd h (by simp)

theorem matchOptionLine_none_of_not_opt {c : Char} {r : Line}
    (h : isOptLetter c = false) : matchOptionLine (c :: r) = none := by
  cases r with
  | nil => rfl
  | cons p rest => simp [matchOptionLine, h]

theorem matchOptionWithX_none_of_ne_X {c : Char} {r : Line} (h : c ≠ 'X') :
    matchOptionWithX (c :: r) = none := by
  simp [matchOptionWithX, h]

theorem isJustX_false_of_ne_X {c : Char} {r : Line} (h : c ≠ 'X') :
    isJustX (c :: r) = false := by
  simp [isJustX, h]

/- Reduction facts about the state steps. -/

theorem catStep_rawQuestions (t : Line) (st : ParseState) :
    (catStep t st).rawQuestions = st.rawQuestions := by
  simp only [catStep]; split <;> rfl

theorem catStep_lastQ (t : Line) (st : ParseState) :
    (catStep t st).lastQuestionNum = st.lastQuestionNum := by
  simp only [catStep]; split <;> rfl

theorem catStep_flag (t : Line) (st : ParseState) :
    (catStep t st).nextOptionIsCorrect = st.nextOptionIsCorrect := by
  simp only [catStep]; split <;> rfl

theorem processLine_blank {line : Line} (rest : List Line) (st : ParseState)
    (h : trimL line = []) : processLine line rest st = st := by
  simp [processLine, h]

theorem processLine_justX {line : Line} (rest : List Line) (st : ParseState)
    (ht : trimL line = ['X']) (hq : 0 < st.lastQuestionNum) :
    processLine line rest st = { st with nextOptionIsCorrect := true } := by
  have hm : isMetaLine ['X'] = false := by decide
  have hc : isCategoryLine ['X'] = false := by decide
  have h4 : matchQuestionOnly ['X'] = none := by decide
  have h5 : matchQuestionWithText ['X'] = none := by decide
  have hx : isJustX ['X'] = true := by decide
  simp [processLine, lateRules, catStep, ht, hm, hc, h4, h5, hx, hq]

/-- Auxiliary state equation: an unmarked option line commits the option with the
    current pending-correct flag and clears the flag. -/
theorem handleOptionLine_unmarked {t : Line} (rest : List Line) (st : ParseState)
    {c : Char} {body : Line} {rq : rawQuestion}
    (hq : 0 < st.lastQuestionNum)
    (hrq : alLookup st.rawQuestions st.lastQuestionNum = some rq)
    (hol : matchOptionLine t = some (c, body)) :
    handleOptionLine t rest st =
      { st with
        rawQuestions := alInsert st.lastQuestionNum
          { rq with options := alInsert c ⟨c, optionText body rest, st.nextOptionIsCorrect⟩ rq.options }
          st.rawQuestions,
        nextOptionIsCorrect := false } := by
  have hX : matchOptionWithX t = none := by
    rcases matchOptionLine_shape hol with ⟨r, hshape, hletter, _⟩
    rw [hshape]
    exact matchOptionWithX_none_of_ne_X (isOptLetter_ne_X hletter)
  simp [handleOptionLine, hq, hrq, hX, hol]

/-- Reduction of processLine on an unmarked option line (not blank, not metadata). -/
theorem processLine_optionLine {line : Line} (rest : List Line) (st : ParseState)
    {c : Char} {body : Line}
    (hol : matchOptionLine (trimL line) = some (c, body))
    (hmeta : isMetaLine (trimL line) = false) :
    processLine line rest st = handleOptionLine (trimL line) rest (catStep (trimL line) st) := by
  rcases matchOptionLine_shape hol with ⟨r, hshape, hletter, _⟩
  have hne : trimL line ≠ [] := by rw [hshape]; simp
  have h4 : matchQuestionOnly (trimL line) = none := by
    rw [hshape]
    simp [matchQuestionOnly, List.takeWhile, isOptLetter_not_digit hletter]
  have h5 : matchQuestionWithText (trimL line) = none := by
    rw [hshape]
    simp [matchQuestionWithText, List.takeWhile, isOptLetter_not_digit hletter]
  have hx : isJustX (trimL line) = false := by
    rw [hshape]
    exact isJustX_false_of_ne_X (isOptLetter_ne_X hletter)
  simp only [processLine, if_neg hne, hmeta, Bool.false_eq_true, if_false, lateRules,
    h4, h5, hx, false_and, and_false, if_false]

/- Lemmas about the main loop. -/

theorem processLines_cons (l : Line) (rest : List Line) (st : ParseState) :
    processLines (l :: rest) st = processLines rest (processLine l rest st) := rfl

theorem processLines_blanks {bs : List Line} (h : ∀ b ∈ bs, trimL b = []) :
    ∀ (l2 : List Line) (st : ParseState), processLines (bs ++ l2) st = processLines l2 st := by
  induction bs with
  | nil => intro l2 st; rfl
  | cons b bs ih =>
    intro l2 st
    rw [List.cons_append, processLines_cons,
      processLine_blank _ _ (h b (List.mem_cons_self b bs))]
    exact ih (fun x hx => h x (List.mem_cons_of_mem b hx)) l2 st

theorem processLines_single (l : Line) (st : ParseState) :
    processLines [l] st = processLine l [] st := rfl

/- Preservation of the draft-map invariant through every state step. -/

theorem mapInv_insert_draft {m : List (Nat × rawQuestion)} (h : mapInv m)
    {n : Nat} (hn : 1 ≤ n) (txt : Line) :
    mapInv (alInsert n ⟨n, txt, []⟩ m) := by
  constructor
  · exact nodup_keys_alInsert n _ m h.1
  · intro p hp
    rcases mem_alInsert _ _ _ _ hp with h1 | h1
    · subst h1
      exact ⟨hn, rfl, fun q hq => absurd hq (List.not_mem_nil q)⟩
    · exact h.2 p h1

theorem mapInv_insert_opt {m : List (Nat × rawQuestion)} (h : mapInv m)
    {n : Nat} {rq : rawQuestion} (hrq : alLookup m n = some rq)
    {c : Char} (hcl : isOptLetter c = true) (txt : Line) (b : Bool) :
    mapInv (alInsert n { rq with options := alInsert c ⟨c, txt, b⟩ rq.options } m) := by
  have hmem := alLookup_mem m n rq hrq
  have hdr := h.2 _ hmem
  constructor
  · exact nodup_keys_alInsert _ _ _ h.1
  · intro p hp
    rcases mem_alInsert _ _ _ _ hp with h1 | h1
    · subst h1
      refine ⟨hdr.1, hdr.2.1, ?_⟩
      intro q hq
      rcases mem_alInsert _ _ _ _ hq with h2 | h2
      · subst h2; exact ⟨rfl, hcl⟩
      · exact hdr.2.2 q h2
    · exact h.2 p h1

theorem mapInv_handleQuestionOnly (ds : Line) (rest : List Line) (st : ParseState)
    (h : mapInv st.rawQuestions) : mapInv (handleQuestionOnly ds rest st).rawQuestions := by
  cases hds : atoi ds with
  | none => simp only [handleQuestionOnly, hds]; exact h
  | some n =>
    simp only [handleQuestionOnly, hds]
    split
    · exact h
    · rename_i hn
      split
      · exact mapInv_insert_draft h (by omega) _
      · exact h

theorem mapInv_handleQuestionInline (ds body : Line) (rest : List Line) (st : ParseState)
    (h : mapInv st.rawQuestions) : mapInv (handleQuestionInline ds body rest st).rawQuestions := by
  cases hds : atoi ds with
  | none => simp only [handleQuestionInline, hds]; exact h
  | some n =>
    simp only [handleQuestionInline, hds]
    split
    · exact h
    · rename_i hn
      split
      · exact h
      · split
        · exact mapInv_insert_draft h (by omega) _
        · exact h

theorem mapInv_handleOptionLine (t : Line) (rest : List Line) (st : ParseState)
    (h : mapInv st.rawQuestions) : mapInv (handleOptionLine t rest st).rawQuestions := by
  simp only [handleOptionLine]
  split
  · cases hlk : alLookup st.rawQuestions st.lastQuestionNum with
    | none => simp only [hlk]; exact h
    | some rq =>
      simp only [hlk]
      cases hx : matchOptionWithX t with
      | some cb =>
        obtain ⟨c, body⟩ := cb
        simp only [hx]
        exact mapInv_insert_opt h hlk (matchOptionWithX_letter hx) _ _
      | none =>
        simp only [hx]
        cases ho : matchOptionLine t with
        | some cb =>
          obtain ⟨c, body⟩ := cb
          simp only [ho]
          exact mapInv_insert_opt h hlk (matchOptionLine_letter ho) _ _
        | none => simp only [ho]; exact h
  · exact h

theorem mapInv_catStep (t : Line) (st : ParseState) (h : mapInv st.rawQuestions) :
    mapInv (catStep t st).rawQuestions := by
  rw [catStep_rawQuestions]; exact h

theorem mapInv_lateRules (t : Line) (rest : List Line) (st : ParseState)
    (h : mapInv st.rawQuestions) : mapInv (lateRules t rest st).rawQuestions := by
  have hlast : ∀ s : ParseState, mapInv s.rawQuestions →
      mapInv (if 0 < s.lastQuestionNum ∧ isJustX t = true
              then { s with nextOptionIsCorrect := true }
              else handleOptionLine t rest s).rawQuestions := by
    intro s hs
    split
    · exact hs
    · exact mapInv_handleOptionLine t rest s hs
  have h2 : mapInv (match matchQuestionOnly t with
      | some ds => handleQuestionOnly ds rest st
      | none => st).rawQuestions := by
    cases matchQuestionOnly t with
    | some ds => exact mapInv_handleQuestionOnly ds rest st h
    | none => exact h
  have h3 : mapInv (match matchQuestionWithText t with
      | some p => handleQuestionInline p.1 p.2 rest (match matchQuestionOnly t with
          | some ds => handleQuestionOnly ds rest st
          | none => st)
      | none => (match matchQuestionOnly t with
          | some ds => handleQuestionOnly ds rest st
          | none => st)).rawQuestions := by
    cases matchQuestionWithText t with
    | some p => exact mapInv_handleQuestionInline p.1 p.2 rest _ h2
    | none => exact h2
  simp only [lateRules]
  have := hlast _ h3
  convert this using 3 <;>
    · cases matchQuestionWithText t with
      | some p => cases p; rfl
      | none => rfl

theorem mapInv_processLine (line : Line) (rest : List Line) (st : ParseState)
    (h : mapInv st.rawQuestions) : mapInv (processLine line rest st).rawQuestions := by
  simp only [processLine]
  split
  · exact h
  · split
    · exact mapInv_catStep _ _ h
    · exact mapInv_lateRules _ _ _ (mapInv_catStep _ _ h)

theorem mapInv_processLines (ls : List Line) (st : ParseState) (h : mapInv st.rawQuestions) :
    mapInv (processLines ls st).rawQuestions := by
  induction ls generalizing st with
  | nil => exact h
  | cons l rest ih => exact ih _ (mapInv_processLine l rest st h)

theorem mapInv_finalState (lines : List Line) : mapInv (finalState lines).rawQuestions := by
  simp only [finalState]
  apply mapInv_processLines
  exact ⟨List.nodup_nil, fun p hp => absurd hp (List.not_mem_nil p)⟩

/- Lemmas about the swap sort of question numbers. -/

theorem innerMin_perm (x : Nat) (l : List Nat) :
    List.Perm ((innerMin x l).1 :: (innerMin x l).2) (x :: l) := by
  induction l generalizing x with
  | nil => simp [innerMin]
  | cons y ys ih =>
    simp only [innerMin]
    split
    · refine List.Perm.trans (List.Perm.swap x (innerMin y ys).1 (innerMin y ys).2) ?_
      exact (ih y).cons x
    · refine List.Perm.trans (List.Perm.swap y (innerMin x ys).1 (innerMin x ys).2) ?_
      refine List.Perm.trans ((ih x).cons y) ?_
      exact List.Perm.swap x y ys

theorem innerMin_le (x : Nat) (l : List Nat) :
    (innerMin x l).1 ≤ x ∧ ∀ y ∈ (innerMin x l).2, (innerMin x l).1 ≤ y := by
  induction l generalizing x with
  | nil => simp [innerMin]
  | cons y ys ih =>
    simp only [innerMin]
    split
    · rename_i hyx
      rcases ih y with ⟨h1, h2⟩
      refine ⟨by omega, ?_⟩
      intro z hz
      rcases List.mem_cons.mp hz with rfl | hz2
      · omega
      · exact h2 z hz2
    · rename_i hyx
      rcases ih x with ⟨h1, h2⟩
      refine ⟨h1, ?_⟩
      intro z hz
      rcases List.mem_cons.mp hz with rfl | hz2
      · omega
      · exact h2 z hz2

theorem sortGo_perm : ∀ (fuel : Nat) (l : List Nat), l.length ≤ fuel →
    List.Perm (sortGo fuel l) l := by
  intro fuel
  induction fuel with
  | zero =>
    intro l hl
    cases l with
    | nil => simp [sortGo]
    | cons x xs => simp at hl
  | succ f ih =>
    intro l hl
    cases l with
    | nil => simp [sortGo]
    | cons x xs =>
      have hx : (innerMin x xs).2.length ≤ f := by
        rw [innerMin_len]
        simp only [List.length_cons] at hl
        omega
      simp only [sortGo]
      exact List.Perm.trans ((ih _ hx).cons (innerMin x xs).1) (innerMin_perm x xs)

theorem sortGo_pairwise_le : ∀ (fuel : Nat) (l : List Nat), l.length ≤ fuel →
    List.Pairwise (· ≤ ·) (sortGo fuel l) := by
  intro fuel
  induction fuel with
  | zero =>
    intro l hl
    cases l with
    | nil => simp [sortGo]
    | cons x xs => simp at hl
  | succ f ih =>
    intro l hl
    cases l with
    | nil => simp [sortGo]
    | cons x xs =>
      have hx : (innerMin x xs).2.length ≤ f := by
        rw [innerMin_len]
        simp only [List.length_cons] at hl
        omega
      simp only [sortGo]
      refine List.Pairwise.cons ?_ (ih _ hx)
      intro z hz
      exact (innerMin_le x xs).2 z ((sortGo_perm f _ hx).mem_iff.mp hz)

theorem sortNums_perm (l : List Nat) : List.Perm (sortNums l) l :=
  sortGo_perm l.length l le_rfl

theorem sortNums_pairwise_le (l : List Nat) : List.Pairwise (· ≤ ·) (sortNums l) :=
  sortGo_pairwise_le l.length l le_rfl

theorem pairwise_lt_of_le_nodup {l : List Nat} (h1 : List.Pairwise (· ≤ ·) l)
    (h2 : l.Nodup) : List.Pairwise (· < ·) l := by
  have h2' : List.Pairwise (fun a b : Nat => a ≠ b) l := h2
  exact (h1.and h2').imp (fun hab => lt_of_le_of_ne hab.1 hab.2)

theorem sortNums_pairwise_lt {l : List Nat} (h : l.Nodup) :
    List.Pairwise (· < ·) (sortNums l) :=
  pairwise_lt_of_le_nodup (sortNums_pairwise_le l) ((sortNums_perm l).nodup_iff.mpr h)

/- Lemmas about catalog finalization. -/

theorem buildQuestions_mem {st : ParseState} {ns : List Nat} {q : models.Question}
    (h : q ∈ buildQuestions st ns) :
    ∃ n rq, n ∈ ns ∧ alLookup st.rawQuestions n = some rq ∧
      5 < utf8Len rq.text ∧ rq.options ≠ [] ∧ q = mkQ st rq := by
  induction ns with
  | nil => simp [buildQuestions] at h
  | cons n ns ih =>
    cases hlk : alLookup st.rawQuestions n with
    | none =>
      simp only [buildQuestions, hlk] at h
      rcases ih h with ⟨n', rq, hm, hl, h5, ho, hq⟩
      exact ⟨n', rq, List.mem_cons_of_mem _ hm, hl, h5, ho, hq⟩
    | some rq =>
      simp only [buildQuestions, hlk] at h
      split at h
      · rename_i hcond
        rcases List.mem_cons.mp h with rfl | h2
        · exact ⟨n, rq, List.mem_cons_self n ns, hlk, hcond.1, hcond.2, rfl⟩
        · rcases ih h2 with ⟨n', rq', hm, hl, h5, ho, hq⟩
          exact ⟨n', rq', List.mem_cons_of_mem _ hm, hl, h5, ho, hq⟩
      · rcases ih h with ⟨n', rq', hm, hl, h5, ho, hq⟩
        exact ⟨n', rq', List.mem_cons_of_mem _ hm, hl, h5, ho, hq⟩

theorem buildQuestions_ids {st : ParseState} (hinv : mapInv st.rawQuestions)
    {ns : List Nat} {q : models.Question} (h : q ∈ buildQuestions st ns) :
    q.ID ∈ ns ∧ 1 ≤ q.ID := by
  rcases buildQuestions_mem h with ⟨n, rq, hm, hl, _, _, hq⟩
  have hmem := alLookup_mem _ _ _ hl
  have hdr := (hinv.2 _ hmem)
  have hid : q.ID = n := by rw [hq]; exact hdr.2.1
  rw [hid]
  exact ⟨hm, hdr.1⟩

theorem buildQuestions_sorted {st : ParseState} (hinv : mapInv st.rawQuestions) :
    ∀ {ns : List Nat}, List.Pairwise (· < ·) ns →
      List.Pairwise (· < ·) ((buildQuestions st ns).map models.Question.ID) := by
  intro ns
  induction ns with
  | nil => intro _; simp [buildQuestions]
  | cons n ns ih =>
    intro hp
    have hp1 := List.pairwise_cons.mp hp
    cases hlk : alLookup st.rawQuestions n with
    | none => simp only [buildQuestions, hlk]; exact ih hp1.2
    | some rq =>
      simp only [buildQuestions, hlk]
      split
      · rename_i hcond
        simp only [List.map_cons]
        refine List.Pairwise.cons ?_ (ih hp1.2)
        intro z hz
        rcases List.mem_map.mp hz with ⟨q, hq, rfl⟩
        have hzm := (buildQuestions_ids hinv hq).1
        have hmk : (mkQ st rq).ID = n := (hinv.2 _ (alLookup_mem _ _ _ hlk)).2.1
        rw [hmk]
        exact hp1.1 _ hzm
      · exact ih hp1.2

theorem buildQuestions_category {st : ParseState} {ns : List Nat} {q : models.Question}
    (h : q ∈ buildQuestions st ns) : q.Category = st.currentCategory := by
  rcases buildQuestions_mem h with ⟨n, rq, _, _, _, _, hq⟩
  rw [hq]; rfl

theorem filterMap_letters_ordered (f : Char → Option models.Option)
    (hf : ∀ c o, f c = some o → o.Letter = c) :
    ∀ ls : List Char, List.Pairwise (· < ·) ls →
      List.Pairwise (· < ·) ((ls.filterMap f).map models.Option.Letter) ∧
      ∀ x ∈ (ls.filterMap f).map models.Option.Letter, x ∈ ls := by
  intro ls
  induction ls with
  | nil => intro _; simp
  | cons c cs ih =>
    intro hp
    have hp1 := List.pairwise_cons.mp hp
    cases hfc : f c with
    | none =>
      simp only [List.filterMap_cons, hfc]
      rcases ih hp1.2 with ⟨ho, hm⟩
      exact ⟨ho, fun x hx => List.mem_cons_of_mem _ (hm x hx)⟩
    | some o =>
      simp only [List.filterMap_cons, hfc, List.map_cons]
      rcases ih hp1.2 with ⟨ho, hm⟩
      have hoc : o.Letter = c := hf c o hfc
      constructor
      · refine List.Pairwise.cons ?_ ho
        intro z hz
        rw [hoc]
        exact hp1.1 _ (hm z hz)
      · intro x hx
        rcases List.mem_cons.mp hx with rfl | hx2
        · rw [hoc]; exact List.mem_cons_self c cs
        · exact List.mem_cons_of_mem _ (hm x hx2)

theorem lettersLookup_ne_nil {os : List (Char × models.Option)}
    (hinv : optInv os) (hne : os ≠ []) :
    letters.filterMap (fun c => alLookup os c) ≠ [] := by
  rcases List.exists_mem_of_ne_nil os hne with ⟨p, hp⟩
  obtain ⟨c, o⟩ := p
  have hcl := (hinv _ hp).2
  have hcm := isOptLetter_mem_letters hcl
  rcases alLookup_isSome_of_mem os c o hp with ⟨o', ho'⟩
  intro hcontra
  rw [List.filterMap_eq_nil_iff] at hcontra
  exact absurd (hcontra c hcm) (by simp [ho'])

/- The accumulation lookahead inspects only a bounded prefix. -/

theorem accumGo_take (stop : Line → Bool) :
    ∀ (fuel k : Nat) (ls : List Line) (acc : Line), fuel ≤ k →
      accumGo stop fuel ls acc = accumGo stop fuel (ls.take k) acc := by
  intro fuel
  induction fuel with
  | zero => intro k ls acc _; rfl
  | succ f ih =>
    intro k ls acc hk
    cases ls with
    | nil => simp [accumGo]
    | cons l ls2 =>
      cases k with
      | zero => omega
      | succ k2 =>
        rw [List.take_succ_cons]
        simp only [accumGo]
        split
        · exact ih k2 ls2 acc (by omega)
        · split
          · rfl
          · exact ih k2 ls2 _ (by omega)

/- Claim theorems. -/

theorem parseLines_questions (now : Line) (lines : List Line) :
    (parseLines now lines).Questions =
      buildQuestions (finalState lines)
        (sortNums ((finalState lines).rawQuestions.map Prod.fst)) := rfl

/-- C1 counterexample: the finalizer stamps every emitted question with the
    category value reached at the end of parsing, not the one current when the
    question was parsed.  Here question 1 is parsed while the category is
    "Sachgebiet: Erstes", question 2 after a later marker line changed it to
    "Sachgebiet: Zweites"; both emitted questions carry the latter, so the two
    questions separated by a category-marker line carry equal category strings,
    contrary to the claim. -/
theorem C1_counterexample :
    ((parseLines ("T".toList)
        [("1.1 Waffen".toList), ("Sachgebiet: Erstes".toList), ("1. Was ist A?".toList),
         ("a) Opt A".toList), ("Sachgebiet: Zweites".toList), ("2. Was ist B?".toList),
         ("a) Opt B".toList)]).Questions.map (fun q => q.Category))
      = [("Sachgebiet: Zweites".toList), ("Sachgebiet: Zweites".toList)] ∧
    ("Sachgebiet: Erstes".toList) ≠ ("Sachgebiet: Zweites".toList) := by
  constructor
  · decide
  · decide

/-- C1 (amended): every question of the final catalog carries the single
    category value of the session state at the end of parsing (the last
    category-marker line seen, or the seeded category); intervening
    category-marker lines between questions do not give them different
    category strings. -/
theorem C1_category_from_final_state (now : Line) (lines : List Line)
    (q : models.Question) (hq : q ∈ (parseLines now lines).Questions) :
    q.Category = (finalState lines).currentCategory := by
  rw [parseLines_questions] at hq
  exact buildQuestions_category hq

/-- C1 witness: the amended theorem applied at a concrete input. -/
theorem C1_category_from_final_state_witness :
    ({ ID := 1, Text := ("Was ist A?".toList),
       Options := [⟨'a', ("Opt A".toList), false⟩],
       Category := ("Sachgebiet: Zweites".toList) } : models.Question).Category
      = (finalState
          [("1.1 Waffen".toList), ("Sachgebiet: Erstes".toList), ("1. Was ist A?".toList),
           ("a) Opt A".toList), ("Sachgebiet: Zweites".toList), ("2. Was ist B?".toList),
           ("a) Opt B".toList)]).currentCategory :=
  C1_category_from_final_state ("T".toList) _ _ (by decide)

/-- C2 counterexample: the catalog's LastModified field is the wall-clock
    timestamp taken by the run (time.Now), made explicit as the first argument
    here; two runs of the text-parsing stage on the identical extracted-text
    input but at different times produce catalogs that are not byte-identical,
    contrary to the claim that every field including LastModified is equal. -/
theorem C2_counterexample :
    parseLines ("2025-01-01T00:00:00Z".toList) []
      ≠ parseLines ("2025-01-01T00:00:01Z".toList) [] := by decide

/-- C2 (amended): with the run timestamp made explicit, the text-parsing stage
    is a pure function of the input: for the same input, catalogs produced at
    any two timestamps agree on every field except LastModified, which equals
    the run timestamp; for equal timestamps the outputs are identical. -/
theorem C2_deterministic_modulo_timestamp (t1 t2 : Line) (lines : List Line) :
    parseLines t1 lines = { parseLines t2 lines with LastModified := t1 } := rfl

/-- C6: multi-line accumulation is hard-capped: the accumulated text for a
    question-number-only line consumes at most 15 lookahead lines (the result
    only depends on the first 15), an inline-question continuation at most 10,
    an option continuation at most 8. -/
theorem C6_accumulation_caps (rest : List Line) (acc : Line) :
    accumGo stopQOnly 14 rest acc = accumGo stopQOnly 14 (rest.take 15) acc ∧
    accumGo stopInline 9 rest acc = accumGo stopInline 9 (rest.take 10) acc ∧
    accumGo stopOption 7 rest acc = accumGo stopOption 7 (rest.take 8) acc :=
  ⟨accumGo_take _ 14 15 rest acc (by omega),
   accumGo_take _ 9 10 rest acc (by omega),
   accumGo_take _ 7 8 rest acc (by omega)⟩

/-- C7 counterexample: the length threshold of the source is Go len(), which
    counts UTF-8 bytes, not characters.  The question text below has exactly 5
    characters but 8 bytes, so it passes the len() > 5 filter and appears in
    the final catalog, contrary to the claim that a text of at most 5
    characters never appears. -/
theorem C7_counterexample :
    ((parseLines ("T".toList) [("7.".toList), ("Wäää?".toList), ("a) Ja".toList)]).Questions.map
        (fun q => q.Text)) = [("Wäää?".toList)] ∧
    ("Wäää?".toList).length = 5 := by
  constructor
  · decide
  · decide

/-- C7 (amended): every Question emitted in the final catalog has text of
    UTF-8 byte length greater than 5 and at least one option; a draft with
    byte length at most 5 or an empty option map never appears. -/
theorem C7_final_question_bytes (now : Line) (lines : List Line)
    (q : models.Question) (hq : q ∈ (parseLines now lines).Questions) :
    5 < utf8Len q.Text ∧ q.Options ≠ [] := by
  have hinv := mapInv_finalState lines
  rw [parseLines_questions] at hq
  rcases buildQuestions_mem hq with ⟨n, rq, hm, hl, h5, ho, hqe⟩
  have hdr := hinv.2 _ (alLookup_mem _ _ _ hl)
  constructor
  · rw [hqe]; exact h5
  · rw [hqe]; exact lettersLookup_ne_nil hdr.2.2 ho

/-- C7 witness: the amended theorem applied at a concrete input. -/
theorem C7_final_question_bytes_witness :
    5 < utf8Len ({ ID := 7, Text := ("Wäää?".toList),
                   Options := [⟨'a', ("Ja".toList), false⟩],
                   Category := [] } : models.Question).Text ∧
    ({ ID := 7, Text := ("Wäää?".toList),
       Options := [⟨'a', ("Ja".toList), false⟩],
       Category := [] } : models.Question).Options ≠ [] :=
  C7_final_question_bytes ("T".toList)
    [("7.".toList), ("Wäää?".toList), ("a) Ja".toList)] _ (by decide)

/-- C8: in every question of the final catalog the option letters are pairwise
    strictly increasing (hence unique and in alphabetical order regardless of
    encounter order) and each letter is drawn from a..f; absent letters are
    skipped, never synthesized. -/
theorem C8_option_letters_ordered (now : Line) (lines : List Line)
    (q : models.Question) (hq : q ∈ (parseLines now lines).Questions) :
    List.Pairwise (· < ·) (q.Options.map models.Option.Letter) ∧
    ∀ x ∈ q.Options.map models.Option.Letter, x ∈ letters := by
  have hinv := mapInv_finalState lines
  rw [parseLines_questions] at hq
  rcases buildQuestions_mem hq with ⟨n, rq, hm, hl, _, _, hqe⟩
  have hdr := hinv.2 _ (alLookup_mem _ _ _ hl)
  have hf : ∀ c o, alLookup rq.options c = some o → o.Letter = c := by
    intro c o hco
    exact (hdr.2.2 _ (alLookup_mem _ _ _ hco)).1
  have hres := filterMap_letters_ordered (fun c => alLookup rq.options c) hf letters (by decide)
  rw [hqe]
  exact hres

/-- C8 witness: the theorem applied at a concrete input whose options appear in
    the source out of alphabetical order. -/
theorem C8_option_letters_ordered_witness :
    List.Pairwise (· < ·)
      (({ ID := 1, Text := ("Was ist A?".toList),
            Options := [⟨'a', ("Eins".toList), false⟩, ⟨'b', ("Zwei".toList), false⟩],
            Category := [] } : models.Question).Options.map models.Option.Letter) ∧
    ∀ x ∈ ({ ID := 1, Text := ("Was ist A?".toList),
              Options := [⟨'a', ("Eins".toList), false⟩, ⟨'b', ("Zwei".toList), false⟩],
              Category := [] } : models.Question).Options.map models.Option.Letter, x ∈ letters :=
  C8_option_letters_ordered ("T".toList)
    [("1. Was ist A?".toList), ("b) Zwei".toList), ("a) Eins".toList)] _ (by decide)

/-- C9: in every final catalog the question IDs are strictly ascending (hence
    unique) and positive; numbers below one never become drafts. -/
theorem C9_question_ids_sorted_positive (now : Line) (lines : List Line) :
    List.Pairwise (· < ·) (((parseLines now lines).Questions).map models.Question.ID) ∧
    ∀ q ∈ (parseLines now lines).Questions, 1 ≤ q.ID := by
  have hinv := mapInv_finalState lines
  constructor
  · rw [parseLines_questions]
    exact buildQuestions_sorted hinv (sortNums_pairwise_lt hinv.1)
  · intro q hq
    rw [parseLines_questions] at hq
    exact (buildQuestions_ids hinv hq).2

/-- C9 witness: the theorem applied at a concrete input whose questions appear
    out of numeric order in the source. -/
theorem C9_question_ids_sorted_positive_witness :
    List.Pairwise (· < ·)
      (((parseLines ("T".toList)
          [("2. Was ist B?".toList), ("a) Ja".toList), ("1. Was ist A?".toList),
           ("b) Nein".toList)]).Questions).map models.Question.ID) ∧
    1 ≤ ({ ID := 1, Text := ("Was ist A?".toList),
           Options := [⟨'b', ("Nein".toList), false⟩],
           Category := [] } : models.Question).ID :=
  ⟨(C9_question_ids_sorted_positive ("T".toList)
      [("2. Was ist B?".toList), ("a) Ja".toList), ("1. Was ist A?".toList),
       ("b) Nein".toList)]).1,
   (C9_question_ids_sorted_positive ("T".toList)
      [("2. Was ist B?".toList), ("a) Ja".toList), ("1. Was ist A?".toList),
       ("b) Nein".toList)]).2 _ (by decide)⟩

/- Further reduction lemmas for the rule cascade. -/

theorem handleOptionLine_noop {t : Line} (rest : List Line) (st : ParseState)
    (hmox : matchOptionWithX t = none) (hmol : matchOptionLine t = none) :
    handleOptionLine t rest st = st := by
  simp only [handleOptionLine, hmox, hmol]
  split
  · split <;> rfl
  · rfl

theorem processLine_eval {line : Line} (rest : List Line) (st : ParseState)
    (hne : trimL line ≠ []) (hmeta : isMetaLine (trimL line) = false) :
    processLine line rest st = lateRules (trimL line) rest (catStep (trimL line) st) := by
  simp only [processLine]
  rw [if_neg hne, if_neg (by simp [hmeta])]

theorem lateRules_qOnly {t : Line} (rest : List Line) (st : ParseState) {ds : Line}
    (hq : matchQuestionOnly t = some ds) (h5 : matchQuestionWithText t = none)
    (hjx : isJustX t = false) :
    lateRules t rest st = handleOptionLine t rest (handleQuestionOnly ds rest st) := by
  simp only [lateRules, hq, h5, hjx, Bool.false_eq_true, and_false, if_false]

theorem lateRules_qInline {t : Line} (rest : List Line) (st : ParseState) {ds body : Line}
    (hq : matchQuestionOnly t = none) (h5 : matchQuestionWithText t = some (ds, body))
    (hjx : isJustX t = false) :
    lateRules t rest st = handleOptionLine t rest (handleQuestionInline ds body rest st) := by
  simp only [lateRules, hq, h5, hjx, Bool.false_eq_true, and_false, if_false]

theorem handleQuestionOnly_commit {ds : Line} (rest : List Line) (st : ParseState) {n : Nat}
    (ha : atoi ds = some n) (h1 : 1 ≤ n) (hlen : 5 < utf8Len (qOnlyText rest)) :
    handleQuestionOnly ds rest st =
      { st with lastQuestionNum := n,
                rawQuestions := alInsert n ⟨n, qOnlyText rest, []⟩ st.rawQuestions } := by
  simp only [handleQuestionOnly, ha]
  rw [if_neg (by omega), if_pos hlen]

theorem handleQuestionInline_commit {ds body : Line} (rest : List Line) (st : ParseState)
    {n : Nat} (ha : atoi ds = some n) (h1 : 1 ≤ n) (hqm : containsC body '?' = true)
    (hlen : 5 < utf8Len (inlineText body rest)) :
    handleQuestionInline ds body rest st =
      { st with lastQuestionNum := n,
                rawQuestions := alInsert n ⟨n, inlineText body rest, []⟩ st.rawQuestions } := by
  simp only [handleQuestionInline, ha]
  rw [if_neg (by omega), if_neg (by simp [hqm]), if_pos hlen]

/-- C3: a standalone X line (with a question context open whose draft exists),
    followed after blank lines by one unmarked option line, marks exactly that
    option correct: the option committed for its letter is correct, options
    with other letters are untouched, and the pending-correct flag is false
    afterwards, so no later option is affected by the X line. -/
theorem C3_standalone_X_marks_exactly_next_option
    (st : ParseState) (x : Line) (bs : List Line) (l : Line) (c : Char) (body : Line)
    (rq : rawQuestion)
    (hx : trimL x = ['X']) (hbs : ∀ b ∈ bs, trimL b = [])
    (hq : 0 < st.lastQuestionNum)
    (hrq : alLookup st.rawQuestions st.lastQuestionNum = some rq)
    (hol : matchOptionLine (trimL l) = some (c, body))
    (hmeta : isMetaLine (trimL l) = false) :
    (processLines (x :: (bs ++ [l])) st).nextOptionIsCorrect = false ∧
    ∃ rq', alLookup (processLines (x :: (bs ++ [l])) st).rawQuestions st.lastQuestionNum
        = some rq' ∧
      alLookup rq'.options c = some ⟨c, optionText body [], true⟩ ∧
      ∀ c', c' ≠ c → alLookup rq'.options c' = alLookup rq.options c' := by
  have hstep1 : processLines (x :: (bs ++ [l])) st
      = processLine l [] { st with nextOptionIsCorrect := true } := by
    rw [processLines_cons, processLine_justX _ _ hx hq, processLines_blanks hbs,
      processLines_single]
  rw [hstep1, processLine_optionLine _ _ hol hmeta]
  cases hcl : isCategoryLine (trimL l) with
  | false =>
    have hcs : catStep (trimL l) { st with nextOptionIsCorrect := true }
        = { st with nextOptionIsCorrect := true } := by
      simp [catStep, hcl]
    rw [hcs,
      handleOptionLine_unmarked [] { st with nextOptionIsCorrect := true } hq hrq hol]
    exact ⟨rfl, _, alLookup_alInsert_self _ _ _, alLookup_alInsert_self _ _ _,
      fun c' hc' => alLookup_alInsert_ne _ _ _ _ hc'⟩
  | true =>
    have hcs : catStep (trimL l) { st with nextOptionIsCorrect := true }
        = { st with nextOptionIsCorrect := true, currentCategory := trimL l } := by
      simp [catStep, hcl]
    rw [hcs,
      handleOptionLine_unmarked []
        { st with nextOptionIsCorrect := true, currentCategory := trimL l } hq hrq hol]
    exact ⟨rfl, _, alLookup_alInsert_self _ _ _, alLookup_alInsert_self _ _ _,
      fun c' hc' => alLookup_alInsert_ne _ _ _ _ hc'⟩

/-- C3 witness: the theorem applied at a concrete input (X line, one blank
    line, then an unmarked option line, with question 1 open). -/
theorem C3_standalone_X_witness :
    (processLines [("X".toList), ("".toList), ("a) Ja".toList)]
        { rawQuestions := [(1, ⟨1, ("Gute Frage?".toList), []⟩)], lastQuestionNum := 1,
          currentCategory := [], nextOptionIsCorrect := false }).nextOptionIsCorrect = false ∧
    ∃ rq', alLookup (processLines [("X".toList), ("".toList), ("a) Ja".toList)]
        { rawQuestions := [(1, ⟨1, ("Gute Frage?".toList), []⟩)], lastQuestionNum := 1,
          currentCategory := [], nextOptionIsCorrect := false }).rawQuestions
        ({ rawQuestions := [(1, ⟨1, ("Gute Frage?".toList), []⟩)], lastQuestionNum := 1,
           currentCategory := [], nextOptionIsCorrect := false } : ParseState).lastQuestionNum
        = some rq' ∧
      alLookup rq'.options 'a' = some ⟨'a', optionText ("Ja".toList) [], true⟩ ∧
      ∀ c', c' ≠ 'a' →
        alLookup rq'.options c' = alLookup (⟨1, ("Gute Frage?".toList), []⟩ : rawQuestion).options c' :=
  C3_standalone_X_marks_exactly_next_option
    { rawQuestions := [(1, ⟨1, ("Gute Frage?".toList), []⟩)], lastQuestionNum := 1,
      currentCategory := [], nextOptionIsCorrect := false }
    ("X".toList) [("".toList)] ("a) Ja".toList) 'a' ("Ja".toList)
    ⟨1, ("Gute Frage?".toList), []⟩
    (by decide) (by decide) (by decide) (by decide) (by decide) (by decide)

/-- C4: when a line commits a question number (rule 4 or rule 5: shape matched,
    number at least one, cleaned text longer than five bytes), the draft stored
    for that number afterwards is a fresh one holding exactly the new text and
    an empty option map, regardless of any previously existing draft for the
    same number and its already-attached options: a second commit of the same
    number overwrites the earlier draft wholesale (last write wins, no merge),
    and only the second text and subsequently attached options can survive into
    the final catalog. -/
theorem C4_last_write_wins (st : ParseState) (line : Line) (rest : List Line)
    (n : Nat) (txt : Line)
    (hmeta : isMetaLine (trimL line) = false)
    (hc : commitResult (trimL line) rest = some (n, txt)) :
    alLookup (processLine line rest st).rawQuestions n = some ⟨n, txt, []⟩ := by
  cases hq : matchQuestionOnly (trimL line) with
  | some ds =>
    simp only [commitResult, hq] at hc
    cases ha : atoi ds with
    | none => simp [ha] at hc
    | some m =>
      simp only [ha] at hc
      split at hc
      · rename_i hcond
        simp only [Option.some.injEq, Prod.mk.injEq] at hc
        obtain ⟨rfl, rfl⟩ := hc
        rcases matchQuestionOnly_head hq with ⟨c0, r, hsh, hd⟩
        have hne : trimL line ≠ [] := by rw [hsh]; simp
        have h5 := mqo_mqwt_none hq
        have hjx : isJustX (trimL line) = false := by
          rw [hsh]; exact isJustX_false_of_ne_X (isDigitC_ne_X hd)
        have hmox : matchOptionWithX (trimL line) = none := by
          rw [hsh]; exact matchOptionWithX_none_of_ne_X (isDigitC_ne_X hd)
        have hmol : matchOptionLine (trimL line) = none := by
          rw [hsh]; exact matchOptionLine_none_of_not_opt (isDigitC_not_optLetter hd)
        rw [processLine_eval rest st hne hmeta, lateRules_qOnly rest _ hq h5 hjx,
          handleOptionLine_noop _ _ hmox hmol,
          handleQuestionOnly_commit rest _ ha hcond.1 hcond.2]
        exact alLookup_alInsert_self _ _ _
      · exact absurd hc (by simp)
  | none =>
    cases hw : matchQuestionWithText (trimL line) with
    | none => simp [commitResult, hq, hw] at hc
    | some p =>
      obtain ⟨ds, body⟩ := p
      simp only [commitResult, hq, hw] at hc
      cases ha : atoi ds with
      | none => simp [ha] at hc
      | some m =>
        simp only [ha] at hc
        split at hc
        · rename_i hcond
          simp only [Option.some.injEq, Prod.mk.injEq] at hc
          obtain ⟨rfl, rfl⟩ := hc
          rcases matchQuestionWithText_head hw with ⟨c0, r, hsh, hd⟩
          have hne : trimL line ≠ [] := by rw [hsh]; simp
          have hjx : isJustX (trimL line) = false := by
            rw [hsh]; exact isJustX_false_of_ne_X (isDigitC_ne_X hd)
          have hmox : matchOptionWithX (trimL line) = none := by
            rw [hsh]; exact matchOptionWithX_none_of_ne_X (isDigitC_ne_X hd)
          have hmol : matchOptionLine (trimL line) = none := by
            rw [hsh]; exact matchOptionLine_none_of_not_opt (isDigitC_not_optLetter hd)
          rw [processLine_eval rest st hne hmeta, lateRules_qInline rest _ hq hw hjx,
            handleOptionLine_noop _ _ hmox hmol,
            handleQuestionInline_commit rest _ ha hcond.1 hcond.2.1 hcond.2.2]
          exact alLookup_alInsert_self _ _ _
        · exact absurd hc (by simp)

/-- C4 witness: the theorem applied at a concrete state that already holds a
    draft for number 7 with an attached option; after the second commit the
    stored draft is the fresh one with no options. -/
theorem C4_last_write_wins_witness :
    alLookup (processLine ("7. Was ist neu denn?".toList) []
        { rawQuestions := [(7, ⟨7, ("Alte Frage?".toList), [('a', ⟨'a', ("Alt".toList), true⟩)]⟩)],
          lastQuestionNum := 7, currentCategory := [],
          nextOptionIsCorrect := false }).rawQuestions 7
      = some ⟨7, ("Was ist neu denn?".toList), []⟩ :=
  C4_last_write_wins
    { rawQuestions := [(7, ⟨7, ("Alte Frage?".toList), [('a', ⟨'a', ("Alt".toList), true⟩)]⟩)],
      lastQuestionNum := 7, currentCategory := [], nextOptionIsCorrect := false }
    ("7. Was ist neu denn?".toList) [] 7 ("Was ist neu denn?".toList)
    (by decide) (by decide)

/-- C5 counterexample: a continuation line containing the page-number label
    "Seite" does not terminate option accumulation; it and the following line
    are joined into the option text, contrary to the claim that any boilerplate
    marker terminates the accumulation. -/
theorem C5_counterexample :
    ((parseLines ("T".toList)
        [("7.".toList), ("Was ist A?".toList), ("a) Opt".toList), ("Seite 3".toList),
         ("Ende".toList)]).Questions.map (fun q => q.Options.map (fun o => o.Text)))
      = [[("Opt Seite 3 Ende".toList)]] ∧
    containsL ("Opt Seite 3 Ende".toList) ("Seite".toList) = true := by
  constructor
  · decide
  · decide

/-- C5 (amended): during option text accumulation, a continuation line
    containing the category marker token "Sachgebiet" or the date-stamp label
    "Stand:" terminates the accumulation (such a line and all lines after it
    are not joined); the page-number, reviewer and publisher labels do not
    terminate it (see the counterexample). -/
theorem C5_option_accum_terminators (fuel : Nat) (l : Line) (rest : List Line) (acc : Line)
    (h : containsL (trimL l) ("Sachgebiet".toList) = true ∨
         containsL (trimL l) ("Stand:".toList) = true) :
    accumGo stopOption (fuel + 1) (l :: rest) acc = acc := by
  have hne : trimL l ≠ [] := by
    intro hc
    rw [hc] at h
    rcases h with h | h <;> exact absurd h (by decide)
  have hstop : stopOption (trimL l) = true := by
    simp only [stopOption, Bool.or_eq_true]
    tauto
  simp only [accumGo]
  rw [if_neg hne, if_pos hstop]

/-- C5 witness: the amended theorem applied at a concrete category-marker
    continuation line. -/
theorem C5_option_accum_terminators_witness :
    accumGo stopOption 7 [("Sachgebiet: Wild".toList)] ("Opt".toList) = ("Opt".toList) :=
  C5_option_accum_terminators 6 ("Sachgebiet: Wild".toList) [] ("Opt".toList)
    (Or.inl (by decide))

/-- C10: a line consisting solely of X sets the pending-correct flag only when
    a question context is open; processed while lastQuestionNum is zero (as it
    is before any question line has been seen), such a line leaves the parser
    state completely unchanged, so it marks no later option correct. -/
theorem C10_X_without_open_question_is_noop (line : Line) (rest : List Line)
    (st : ParseState) (ht : trimL line = ['X']) (hq : st.lastQuestionNum = 0) :
    processLine line rest st = st := by
  have hm : isMetaLine ['X'] = false := by decide
  have hcl : isCategoryLine ['X'] = false := by decide
  have h4 : matchQuestionOnly ['X'] = none := by decide
  have h5 : matchQuestionWithText ['X'] = none := by decide
  simp [processLine, lateRules, catStep, handleOptionLine, ht, hm, hcl, h4, h5, hq]

/-- C10 witness: the theorem applied at a concrete input. -/
theorem C10_X_without_open_question_is_noop_witness :
    processLine ("  X  ".toList) [("a) Foo".toList)]
        { rawQuestions := [], lastQuestionNum := 0, currentCategory := [],
          nextOptionIsCorrect := false }
      = { rawQuestions := [], lastQuestionNum := 0, currentCategory := [],
          nextOptionIsCorrect := false } :=
  C10_X_without_open_question_is_noop ("  X  ".toList) [("a) Foo".toList)]
    { rawQuestions := [], lastQuestionNum := 0, currentCategory := [],
      nextOptionIsCorrect := false }
    (by decide) rfl
